import Mathlib

/-!
Verification development for the serverless monorepo symlinking plugin
(src/index.js).  The plugin materialises a package's declared dependency
graph into a symlink layout under `node_modules` directories and provides
an inverse cleanup routine.

Shallow embedding conventions:
* A filesystem path is a list of segments (the JS code splits paths on the
  separator, so an absolute path `/ws/svc` is `["", "ws", "svc"]`).
* The package database `Db` is the set of manifest (`package.json`) files
  on disk, each with its parsed manifest; symlinks created by the plugin
  are tracked separately as pairs (link path, absolute target directory).
  The JS code stores the relative rendering `path.relative(dirname(link),
  target)` in the link; since that rendering is uniquely determined by the
  link path and the absolute target, the model stores the absolute target.
* Asynchronous fan-out (`Promise.all`) is linearised left to right.  This
  preserves the dedup discipline of the shared `created` set because the
  JS code performs the `created.has`/`created.add` pair synchronously
  (no `await` between them, lines 85-86 of src/index.js).
* General recursion of `linkPackage` is embedded with a fuel parameter;
  the theorem `linkPackage_no_fuel_error` below shows the chosen fuel is
  always sufficient, which is the faithful rendering of termination.
-/

namespace SMR

/-- The dependency-directory segment appended by `getNodeModulePaths`. -/
def nmSeg : String := "node_modules"

/-- The manifest file name. -/
def pjSeg : String := "package.json"

/-- The scope marker prefix for scoped package directories. -/
def atMark : String := "@"

/-- A filesystem path as its list of separator-split segments. -/
abbrev Path := List String

/-- Character-level worker for `splitSeg`. -/
def splitAux : List Char → List Char → List String
  | [], acc => [String.mk acc.reverse]
  | c :: rest, acc =>
    if c = '/' then String.mk acc.reverse :: splitAux rest []
    else splitAux rest (c :: acc)

/-- Split a string on the path separator, as `String.split` on `"/"` does
in the JS `path.join`/`split` calls: `"a/b"` becomes `["a", "b"]`, a
string without a separator is a single segment. -/
def splitSeg (s : String) : List String :=
  splitAux s.toList []

/-- Parsed manifest content: the ordered key set of `dependencies` (the
version-spec values are unused by the plugin beyond key existence) and the
ordered `workspaces` list (meaningful for the root manifest only).
Mirrors the destructurings at src/index.js lines 91, 143-144, 162, 171-172. -/
structure Manifest where
  dependencies : List String
  workspaces : List String
deriving DecidableEq, Repr, Inhabited

/-- The manifest files on disk: (path of the `package.json` file, parsed
content).  This is the static package installation the plugin reads. -/
abbrev Db := List (Path × Manifest)

/-- Joining a dependency name onto a directory path.  `path.join` re-splits
on the separator, so a scoped name such as `@scope/pkg` contributes two
segments (src/index.js lines 62, 76, 84, 87). -/
def pathJoin (p : Path) (name : String) : Path :=
  p ++ splitSeg name

/-- Worker for `getNodeModulePaths`: the candidate contributed by the
length-`k` prefix, for `k` counting down from the full length to 1. -/
def gnmpAux (p : Path) : Nat → List Path
  | 0 => []
  | k + 1 => (p.take (k + 1) ++ [nmSeg]) :: gnmpAux p k

/-- src/index.js lines 5-13: all `node_modules` resolution paths obtained
by walking the split path upward, nearest first.  The JS loop pushes
`join(paths) + "/node_modules"` and pops one segment while the split list
is nonempty, so every nonempty prefix contributes one candidate, longest
(nearest) first. -/
def getNodeModulePaths (p : Path) : List Path :=
  gnmpAux p p.length

/-- Number of `node_modules` segments in a path.  src/index.js line 85
counts regex matches of `node_modules` in the path string; in this model
every occurrence is a whole segment (no other segment in scope contains
the substring), so the segment count is the faithful rendering. -/
def nmCount (p : Path) : Nat :=
  p.count nmSeg

/-- Look up a manifest file stored at exactly `p`. -/
def lookupDb (db : Db) (p : Path) : Option Manifest :=
  (db.find? (fun e => e.1 == p)).map (fun e => e.2)

/-- Symlinks: (absolute link path, absolute target directory). -/
abbrev Links := List (Path × Path)

/-- Reading the manifest file at `p` through the live filesystem: either
the file is literally on disk, or its parent directory is a symlink the
plugin created and the file lives under the link target.  Models the
symlink-following of `fs.existsSync`/`require` used at src/index.js
lines 76 and 91 for paths of the shape `<dir>/package.json`. -/
def readManifest (db : Db) (links : Links) (p : Path) : Option Manifest :=
  match lookupDb db p with
  | some m => some m
  | none =>
    match links.find? (fun l => l.1 == p.dropLast) with
    | some l => lookupDb db (l.2 ++ [pjSeg])
    | none => none

/-- Does the manifest file at `p` exist (possibly through a link)? -/
def manifestAt (db : Db) (links : Links) (p : Path) : Bool :=
  (readManifest db links p).isSome

/-- src/index.js lines 59-81: resolve `name`'s manifest file from the
candidate list.  The primary `require.resolve` attempt (line 62) and the
fallback linear `fs.existsSync` scan (lines 72-80) both pick the first
candidate directory containing `<candidate>/<name>/package.json`.  The
model returns that literal candidate path, which is exactly what the
fallback returns; the fallback decides the result whenever the primary
throws, which per the code's own comment happens for packages whose
manifest declares a conditional export map hiding `package.json`.  (When
the primary succeeds it returns the same manifest through the same
candidate, only with symlinks in the path resolved to their targets;
statements about second-run resolution through created links - see the
idempotence counterexample - therefore exercise the fallback path of the
code.) -/
def resolvePkg (db : Db) (links : Links) (name : String) (fromPath : Path) :
    Option Path :=
  match (getNodeModulePaths fromPath).find?
      (fun c => manifestAt db links (pathJoin c name ++ [pjSeg])) with
  | some c => some (pathJoin c name ++ [pjSeg])
  | none => none

/-- Errors surfaced by a linkage pass. -/
inductive Err where
  /-- Artificial out-of-fuel marker of the embedding; proved unreachable. -/
  | fuel : Err
  /-- Neither resolution attempt found the package: the JS code then
  dereferences the undefined `pkg` at line 84 and the thrown error aborts
  the branch. -/
  | resolution : String → Err
  /-- `require(pkg)` failed to load the manifest (src/index.js line 91). -/
  | requireFail : Path → Err
  /-- Non-EEXIST filesystem failure during link creation
  (src/index.js lines 16-24). -/
  | fsError : Path → Err
  /-- `require` of a linkage root's or settings manifest failed
  (src/index.js lines 143-144, 162, 171-172). -/
  | manifestMissing : Path → Err
deriving DecidableEq, Repr

/-- Does any manifest file lie at `p` or below, or does a created link sit
exactly at `p`?  Used for the EEXIST condition of `fs.symlink`. -/
def existsNode (db : Db) (links : Links) (p : Path) : Bool :=
  links.any (fun l => l.1 == p) || db.any (fun e => p.isPrefixOf e.1)

/-- Is the directory `p` blocked because a manifest file lies on it or on
one of its ancestors?  `fs.ensureDir` fails (ENOTDIR) in that case. -/
def fileBlocked (db : Db) (p : Path) : Bool :=
  db.any (fun e => e.1.isPrefixOf p)

/-- src/index.js lines 15-25, `link(target, f)`: ensure the parent
directory, then create the symlink, swallowing only EEXIST.  Returns the
updated link list and whether a new link was actually created. -/
def linkOp (db : Db) (links : Links) (target f : Path) :
    Except Err (Links × Bool) :=
  if fileBlocked db f.dropLast then .error (.fsError f)
  else if existsNode db links f then .ok (links, false)
  else .ok (links ++ [(f, target)], true)

/-- Mutable state threaded through one linkage pass: the live symlinks,
the shared `created` set (src/index.js line 163, shared by reference), and
the trace of links actually created, recorded as (destination directory,
package name) pairs. -/
structure LinkState where
  links : Links
  created : List String
  trace : List (Path × String)
deriving DecidableEq, Repr

/-- src/index.js lines 50-97, `linkPackage(name, fromPath, toPath,
created, resolved)`, with explicit fuel (see `linkPackage` for the fuel
actually supplied).  Steps, in source order: cycle check against the
ancestry `resolved`; resolution; conditional link creation guarded by the
`node_modules`-count and the shared created set; reading the resolved
manifest's dependencies; recursion over them (the `Promise.all` fan-out of
lines 94-96, linearised left to right) with the extended ancestry. -/
def go (db : Db) : Nat → String → Path → Path → LinkState → List String →
    Except Err LinkState
  | 0, _, _, _, _, _ => .error .fuel
  | fuel + 1, name, fromPath, toPath, st, resolved =>
    if resolved.contains name then .ok st
    else
      match resolvePkg db st.links name fromPath with
      | none => .error (.resolution name)
      | some pkg =>
        let step : Except Err LinkState :=
          if nmCount pkg ≤ 1 ∧ st.created.contains name = false then
            match linkOp db st.links pkg.dropLast (pathJoin toPath name) with
            | .error e => .error e
            | .ok (links2, madeNew) =>
              .ok { links := links2
                    created := st.created ++ [name]
                    trace := st.trace ++
                      (if madeNew then [(toPath, name)] else []) }
          else .ok st
        match step with
        | .error e => .error e
        | .ok st2 =>
          match readManifest db st2.links pkg with
          | none => .error (.requireFail pkg)
          | some m =>
            m.dependencies.foldlM
              (fun acc dep =>
                go db fuel dep pkg.dropLast toPath acc (resolved ++ [name]))
              st2

/-- The dependency fan-out of one `linkPackage` call, as the explicit
recursion used for reasoning; `go_succ_eq` below identifies it with the
`foldlM` inside `go`. -/
def linkAll (db : Db) (fuel : Nat) (deps : List String)
    (fromPath toPath : Path) (st : LinkState) (resolved : List String) :
    Except Err LinkState :=
  match deps with
  | [] => .ok st
  | d :: rest =>
    match go db fuel d fromPath toPath st resolved with
    | .error e => .error e
    | .ok st2 => linkAll db fuel rest fromPath toPath st2 resolved

/-- All dependency names mentioned by any manifest on disk.  Created links
only redirect reads back into `db`, so every name a linkage pass can ever
recurse into lies in this list; its length bounds the recursion depth. -/
def depUniverse (db : Db) : List String :=
  (db.map (fun e => e.2.dependencies)).flatten

/-- Fuel sufficient for every `linkPackage` recursion over `db`
(established by `linkPackage_no_fuel_error`). -/
def fuelFor (db : Db) : Nat :=
  2 * (depUniverse db).length + 2

/-- src/index.js lines 50-97 with the always-sufficient fuel supplied. -/
def linkPackage (db : Db) (name : String) (fromPath toPath : Path)
    (st : LinkState) (resolved : List String) : Except Err LinkState :=
  go db (fuelFor db) name fromPath toPath st resolved

/-- The `Promise.all` over the direct dependencies of one linkage pass
(src/index.js lines 164-167), linearised: each direct dependency gets a
`linkPackage` call with the pass's shared state and an empty ancestry. -/
def passAll (db : Db) (deps : List String) (linkagePath : Path)
    (st : LinkState) : Except Err LinkState :=
  match deps with
  | [] => .ok st
  | d :: rest =>
    match linkPackage db d linkagePath (linkagePath ++ [nmSeg]) st [] with
    | .error e => .error e
    | .ok st2 => passAll db rest linkagePath st2

/-- src/index.js lines 161-168, `processLinkages(linkagePath)`: read the
root's manifest, then run `linkPackage` for each direct dependency with
destination `<linkagePath>/node_modules`, one fresh created set and empty
ancestry for the whole pass. -/
def processLinkages (db : Db) (linkagePath : Path) (links0 : Links) :
    Except Err LinkState :=
  match readManifest db links0 (linkagePath ++ [pjSeg]) with
  | none => .error (.manifestMissing (linkagePath ++ [pjSeg]))
  | some m =>
    passAll db m.dependencies linkagePath
      { links := links0, created := [], trace := [] }

/-- src/index.js lines 170-183, `getWorkspaceDependencies()`: walk the
root manifest's workspaces in order and keep each entry that is truthy as
a key of the target manifest's dependencies.  The JS method re-reads both
manifests through the module cache; the model receives the parsed
manifests directly. -/
def getWorkspaceDependencies (tm rm : Manifest) : List String :=
  rm.workspaces.foldl
    (fun acc w => if tm.dependencies.contains w then acc ++ [w] else acc) []

/-- Plugin settings: the target service path and the workspace root path,
computed at construction by dropping the last path segment
(src/index.js lines 43-47). -/
structure Settings where
  path : Path
  workspacePath : Path
deriving DecidableEq, Repr

/-- src/index.js lines 46-47: the workspace path is the service path with
its final segment removed. -/
def Settings.ofServicePath (p : Path) : Settings :=
  { path := p, workspacePath := p.dropLast }

/-- The linkage roots processed by `initialise` (src/index.js
lines 145-158), in execution order: the `workspacesToLink` list - which is
`getWorkspaceDependencies()` concatenated with the result of the loop at
lines 147-152 that pushes every workspace entry found in the target's
dependencies a second time - each joined under the workspace path, and
finally the service path itself. -/
def linkagePassRoots (tm rm : Manifest) (s : Settings) : List Path :=
  ((getWorkspaceDependencies tm rm ++
      rm.workspaces.foldl
        (fun acc w =>
          if tm.dependencies.contains w then acc ++ [w] else acc) []).map
    (fun w => s.workspacePath ++ splitSeg w)) ++ [s.path]

/-- One `processLinkages` pass per linkage root, in order, threading the
live link set and accumulating the creation trace (the `Promise.all` over
workspace passes at src/index.js line 155 followed by the service pass at
line 158, linearised). -/
def runPasses (db : Db) (roots : List Path) (links : Links)
    (trace : List (Path × String)) :
    Except Err (Links × List (Path × String)) :=
  match roots with
  | [] => .ok (links, trace)
  | r :: rest =>
    match processLinkages db r links with
    | .error e => .error e
    | .ok st => runPasses db rest st.links (trace ++ st.trace)

/-- src/index.js lines 140-159, `initialise()`: read the target and root
manifests, compute the linkage roots, and run one `processLinkages` pass
per root (the workspace passes, then the service pass). -/
def initialise (db : Db) (s : Settings) (links0 : Links) :
    Except Err (Links × List (Path × String)) :=
  match readManifest db links0 (s.path ++ [pjSeg]) with
  | none => .error (.manifestMissing (s.path ++ [pjSeg]))
  | some tm =>
    match readManifest db links0 (s.workspacePath ++ [pjSeg]) with
    | none => .error (.manifestMissing (s.workspacePath ++ [pjSeg]))
    | some rm =>
      runPasses db (linkagePassRoots tm rm s) links0 []

/-! ### Helper notions for the proofs -/

/-- `grows a b`: `b` is `a` with some elements appended.  Every state
component of a linkage pass only ever grows this way. -/
def grows {α : Type} (a b : List α) : Prop :=
  ∃ t, b = a ++ t

/-- Invariant of a linkage pass tying the creation trace to the shared
created set: every traced name is in the set, and no name is traced
twice. -/
def Inv (st : LinkState) : Prop :=
  (∀ e ∈ st.trace, e.2 ∈ st.created) ∧
    (st.trace.map (fun e => e.2)).Nodup

/-- How one (partial) run of `go` relates its input state to its output
state: all components grow by appending, every new trace entry carries a
name outside the ancestry `resolved`, and the pass invariant is
preserved. -/
def StepRel (resolved : List String) (st st2 : LinkState) : Prop :=
  grows st.links st2.links ∧ grows st.created st2.created ∧
    grows st.trace st2.trace ∧
    (∀ e ∈ st2.trace, e ∈ st.trace ∨ e.2 ∉ resolved) ∧
    (Inv st → Inv st2)

/-- Termination measure of one `go` call: names of the dependency
universe not yet in the ancestry, weighted to absorb one extra step when
the current name lies outside the universe. -/
def mea (db : Db) (name : String) (resolved : List String) : Nat :=
  2 * ((depUniverse db).filter
        (fun n => !(resolved.contains n))).length +
    (if name ∈ depUniverse db then 0 else 1)

/-! ### The cleanup routine (src/index.js lines 99-138)

`clean(p)` works on one directory of the live file tree, so the model
represents a file tree directly: regular files (with opaque content),
symbolic links (their targets are irrelevant to `clean`), and
directories. -/

/-- A node of the file tree visited by `clean`. -/
inductive FNode where
  /-- A regular file; the `Nat` stands for its content. -/
  | file : Nat → FNode
  /-- A symbolic link (`lstat` reports `isSymbolicLink`). -/
  | link : FNode
  /-- A directory with its named entries. -/
  | dir : List (String × FNode) → FNode

/-- `lstat(...).isSymbolicLink()`. -/
def FNode.isLink : FNode → Bool
  | .link => true
  | _ => false

/-- `lstat(...).isDirectory()`. -/
def FNode.isDir : FNode → Bool
  | .dir _ => true
  | _ => false

/-- `f.startsWith('@')` of src/index.js line 104. -/
def startsWithAt (s : String) : Bool :=
  match s.toList with
  | c :: _ => c == '@'
  | [] => false

/-- src/index.js line 104, `isScopedPkgDir`: a directory entry whose name
begins with the scope marker. -/
def isScopedEntry (e : String × FNode) : Bool :=
  e.2.isDir && startsWithAt e.1

/-- The in-memory `contents` list of src/index.js lines 113-125 after
both filters is empty exactly when every entry is a symlink or a scoped
package directory. -/
def allLinkOrScoped (es : List (String × FNode)) : Bool :=
  es.all (fun e => e.2.isLink || isScopedEntry e)

/-- Result of cleaning one path: the node remaining on disk (`none` when
the directory was removed) and whether the operation succeeded.  On
failure the tree reflects the filesystem effects already performed. -/
structure COut where
  node : Option FNode
  ok : Bool

mutual

/-- src/index.js lines 107-131, the inner `clean(p)`: list the entries,
unlink every symlink, recursively clean every scoped package directory,
and, when the filtered in-memory `contents` list is empty, remove the
directory itself with `fs.rmdir` - which succeeds only if the directory
is empty on disk; a leftover non-empty scoped directory makes it fail
(ENOTEMPTY).  Called on a non-directory, `readdir` fails.  A failed
recursive clean aborts the level before the `rmdir` (the `await
Promise.all` rejects), with the sibling effects retained. -/
def cleanNode : FNode → COut
  | .file a => ⟨some (.file a), false⟩
  | .link => ⟨some .link, false⟩
  | .dir entries =>
    let r := cleanList entries
    if r.2 = false then ⟨some (.dir r.1), false⟩
    else if allLinkOrScoped entries then
      if r.1.isEmpty then ⟨none, true⟩ else ⟨some (.dir r.1), false⟩
    else ⟨some (.dir r.1), true⟩

/-- The per-entry effects of one `clean` level, linearised: symlinks are
unlinked, scoped package directories are cleaned recursively (dropped
when their own removal succeeded), every other entry is untouched.
Returns the entries remaining on disk and whether all recursive cleans
succeeded. -/
def cleanList : List (String × FNode) → List (String × FNode) × Bool
  | [] => ([], true)
  | (n, c) :: rest =>
    let r := cleanList rest
    if c.isLink then r
    else if c.isDir && startsWithAt n then
      let rc := cleanNode c
      match rc.node with
      | none => (r.1, rc.ok && r.2)
      | some c2 => ((n, c2) :: r.1, rc.ok && r.2)
    else ((n, c) :: r.1, r.2)

end

/-- src/index.js lines 108-110: cleaning an absent path is a successful
no-op; otherwise clean the node found there. -/
def clean : Option FNode → COut
  | none => ⟨none, true⟩
  | some n => cleanNode n

mutual

/-- Does `clean` make this node disappear entirely?  A directory
vanishes when every entry is a symlink or a scoped directory that itself
vanishes. -/
def vanishesB : FNode → Bool
  | .file _ => false
  | .link => false
  | .dir entries => vanishesList entries

/-- Entry-list form of `vanishesB`. -/
def vanishesList : List (String × FNode) → Bool
  | [] => true
  | (n, c) :: rest =>
    (c.isLink || (c.isDir && startsWithAt n && vanishesB c)) &&
      vanishesList rest

end

mutual

/-- Does `clean` succeed on this node?  Characterisation used by the
theorems: every scoped subdirectory must clean successfully, and when
every entry is a symlink or scoped directory (so the code attempts
`rmdir`), the scoped ones must all vanish. -/
def cleanOkB : FNode → Bool
  | .file _ => false
  | .link => false
  | .dir entries =>
    childrenOk entries && (!(allLinkOrScoped entries) || vanishesList entries)

/-- Entry-list form of the recursive success condition. -/
def childrenOk : List (String × FNode) → Bool
  | [] => true
  | (n, c) :: rest =>
    (!(c.isDir && startsWithAt n) || cleanOkB c) && childrenOk rest

end

mutual

/-- The regular files of a tree, as (path, content) pairs. -/
def filesOf : FNode → List (List String × Nat)
  | .file a => [([], a)]
  | .link => []
  | .dir entries => filesOfList entries

/-- Entry-list form of `filesOf`. -/
def filesOfList : List (String × FNode) → List (List String × Nat)
  | [] => []
  | (n, c) :: rest =>
    (filesOf c).map (fun pr => (n :: pr.1, pr.2)) ++ filesOfList rest

end

/-- The regular files under an optional node. -/
def filesOfOpt : Option FNode → List (List String × Nat)
  | none => []
  | some n => filesOf n

/-! ### Manifest reads through the module cache (for C9)

src/index.js reads every manifest with `require(...)` (lines 91, 143-144,
162, 171-172).  Node's `require` consults its module cache: the first
load of a path reads the file from disk and caches the parsed value, and
every later `require` of the same path returns the cached value even if
the file has changed.  The model runs a sequence of manifest reads
against a time-indexed disk. -/

/-- A sequence of `require` calls for manifest paths: `disk p t` is the
on-disk content of `p` at the time of the `t`-th read of the run.  A
cache hit returns the cached manifest without consulting the disk; a miss
reads the disk and caches the result. -/
def requireSeq (disk : Path → Nat → Manifest) :
    List Path → Nat → List (Path × Manifest) → List Manifest
  | [], _, _ => []
  | p :: rest, t, cache =>
    match cache.find? (fun e => e.1 == p) with
    | some e => e.2 :: requireSeq disk rest (t + 1) cache
    | none =>
      disk p t :: requireSeq disk rest (t + 1) (cache ++ [(p, disk p t)])

/-! ### Spec-side definitions and concrete scenarios -/

/-- The final path component of a workspace entry (`"packages/a"` has
final component `"a"`). -/
def lastComponent (w : String) : String :=
  (splitSeg w).getLastD w

/-- Modelled from the words of the spec (section 4.4): return every
workspace member whose FINAL PATH COMPONENT names a key of the target
manifest's dependencies.  Stated for comparison with the source's
`getWorkspaceDependencies`, which tests the whole entry string. -/
def specWorkspaceSelection (tm rm : Manifest) : List String :=
  rm.workspaces.filter (fun w => tm.dependencies.contains (lastComponent w))

/-- Workspace root directory of the concrete scenarios. -/
def wsRoot : Path := ["", "ws"]

/-- A target package directory for single-pass scenarios. -/
def appPath : Path := ["", "ws", "app"]

/-- The service directory of the orchestrated scenarios. -/
def svcPath : Path := ["", "ws", "svc"]

/-- Settings for a service at `svcPath` (workspace path is its parent). -/
def svcSettings : Settings := Settings.ofServicePath svcPath

/-- Two-cycle scenario A -> B -> A, both hoisted at the workspace root. -/
def cycleDb : Db :=
  [ (appPath ++ [pjSeg], ⟨["A"], []⟩),
    (wsRoot ++ [nmSeg, "A", pjSeg], ⟨["B"], []⟩),
    (wsRoot ++ [nmSeg, "B", pjSeg], ⟨["A"], []⟩) ]

/-- Diamond scenario A -> B, A -> C, B -> D, C -> D, all hoisted. -/
def diamondDb : Db :=
  [ (appPath ++ [pjSeg], ⟨["A"], []⟩),
    (wsRoot ++ [nmSeg, "A", pjSeg], ⟨["B", "C"], []⟩),
    (wsRoot ++ [nmSeg, "B", pjSeg], ⟨["D"], []⟩),
    (wsRoot ++ [nmSeg, "C", pjSeg], ⟨["D"], []⟩),
    (wsRoot ++ [nmSeg, "D", pjSeg], ⟨[], []⟩) ]

/-- Depth-policy scenario: E is nested inside A's own `node_modules`
(two dependency-directory segments), its dependency F is hoisted. -/
def nestedDb : Db :=
  [ (appPath ++ [pjSeg], ⟨["A"], []⟩),
    (wsRoot ++ [nmSeg, "A", pjSeg], ⟨["E"], []⟩),
    (wsRoot ++ [nmSeg, "A", nmSeg, "E", pjSeg], ⟨["F"], []⟩),
    (wsRoot ++ [nmSeg, "F", pjSeg], ⟨[], []⟩) ]

/-- Resolution-failure scenario: A resolves, its dependency B exists
nowhere. -/
def chainDb : Db :=
  [ (appPath ++ [pjSeg], ⟨["A"], []⟩),
    (wsRoot ++ [nmSeg, "A", pjSeg], ⟨["B"], []⟩) ]

/-- Stale-package scenario for the idempotence counterexample: the
service depends on d (hoisted, depending on the hoisted w), while a stale
real directory for w - declaring a dependency q that the current w does
not have - sits in the service's own dependency directory. -/
def staleDb : Db :=
  [ (svcPath ++ [pjSeg], ⟨["d"], []⟩),
    (wsRoot ++ [pjSeg], ⟨[], []⟩),
    (wsRoot ++ [nmSeg, "d", pjSeg], ⟨["w"], []⟩),
    (wsRoot ++ [nmSeg, "w", pjSeg], ⟨[], []⟩),
    (wsRoot ++ [nmSeg, "q", pjSeg], ⟨[], []⟩),
    (svcPath ++ [nmSeg, "w", pjSeg], ⟨["q"], []⟩) ]

/-- Cross-pass scenario: two selected workspaces both depending on
lodash, the workspace members reachable through pre-existing root links. -/
def crossDb : Db :=
  [ (svcPath ++ [pjSeg], ⟨["w1", "w2"], []⟩),
    (wsRoot ++ [pjSeg], ⟨[], ["w1", "w2"]⟩),
    (wsRoot ++ ["w1", pjSeg], ⟨["lodash"], []⟩),
    (wsRoot ++ ["w2", pjSeg], ⟨["lodash"], []⟩),
    (wsRoot ++ [nmSeg, "lodash", pjSeg], ⟨[], []⟩) ]

/-- Pre-existing hoisted links for the workspace members of `crossDb`. -/
def crossLinks0 : Links :=
  [ (wsRoot ++ [nmSeg, "w1"], wsRoot ++ ["w1"]),
    (wsRoot ++ [nmSeg, "w2"], wsRoot ++ ["w2"]) ]

/-- A manifest file whose on-disk content changes after the first read:
content `{dependencies: [a]}` at read time 0 and `{dependencies: [b]}`
afterwards. -/
def staleDisk : Path → Nat → Manifest :=
  fun _ t => if t = 0 then ⟨["a"], []⟩ else ⟨["b"], []⟩

/-- Decidable equality of `Except` results, used to evaluate the
concrete scenarios. -/
instance instDecEqExcept {ε α : Type} [DecidableEq ε] [DecidableEq α] :
    DecidableEq (Except ε α) := fun a b =>
  match a, b with
  | .error e1, .error e2 =>
    if h : e1 = e2 then .isTrue (h ▸ rfl)
    else .isFalse (fun hc => h (Except.error.inj hc))
  | .error _, .ok _ => .isFalse (fun hc => Except.noConfusion hc)
  | .ok _, .error _ => .isFalse (fun hc => Except.noConfusion hc)
  | .ok a1, .ok a2 =>
    if h : a1 = a2 then .isTrue (h ▸ rfl)
    else .isFalse (fun hc => h (Except.ok.inj hc))

set_option synthInstance.maxSize 2000

theorem grows_refl {α : Type} (a : List α) : grows a a :=
  ⟨[], by simp⟩

theorem grows_trans {α : Type} {a b c : List α} (h1 : grows a b)
    (h2 : grows b c) : grows a c := by
  obtain ⟨t1, rfl⟩ := h1
  obtain ⟨t2, rfl⟩ := h2
  exact ⟨t1 ++ t2, by simp⟩

theorem grows_append {α : Type} (a t : List α) : grows a (a ++ t) :=
  ⟨t, rfl⟩

theorem mem_of_grows {α : Type} {a b : List α} {x : α} (h : grows a b)
    (hx : x ∈ a) : x ∈ b := by
  obtain ⟨t, rfl⟩ := h
  exact List.mem_append_left _ hx

theorem stepRel_refl (resolved : List String) (st : LinkState) :
    StepRel resolved st st :=
  ⟨grows_refl _, grows_refl _, grows_refl _, fun _ he => .inl he, id⟩

theorem stepRel_trans {resolved : List String} {st st2 st3 : LinkState}
    (h1 : StepRel resolved st st2) (h2 : StepRel resolved st2 st3) :
    StepRel resolved st st3 := by
  obtain ⟨l1, c1, t1, n1, i1⟩ := h1
  obtain ⟨l2, c2, t2, n2, i2⟩ := h2
  refine ⟨grows_trans l1 l2, grows_trans c1 c2, grows_trans t1 t2, ?_,
    fun h => i2 (i1 h)⟩
  intro e he
  rcases n2 e he with he2 | hout
  · exact n1 e he2
  · exact .inr hout

/-- Composition across one recursion step: the inner fan-out runs with the
ancestry extended by `name`, and its guarantee weakens to the outer
ancestry. -/
theorem stepRel_comp {resolved : List String} {name : String}
    {st st2 st3 : LinkState} (h1 : StepRel resolved st st2)
    (h2 : StepRel (resolved ++ [name]) st2 st3) :
    StepRel resolved st st3 := by
  obtain ⟨l1, c1, t1, n1, i1⟩ := h1
  obtain ⟨l2, c2, t2, n2, i2⟩ := h2
  refine ⟨grows_trans l1 l2, grows_trans c1 c2, grows_trans t1 t2, ?_,
    fun h => i2 (i1 h)⟩
  intro e he
  rcases n2 e he with he2 | hout
  · exact n1 e he2
  · exact .inr (fun hc => hout (by simp [hc]))

/-- `linkOp` either leaves the links unchanged (EEXIST swallowed) or
appends exactly the requested link. -/
theorem linkOp_ok {db : Db} {links : Links} {target f : Path}
    {links2 : Links} {b : Bool}
    (h : linkOp db links target f = .ok (links2, b)) :
    (links2 = links ∧ b = false) ∨
      (links2 = links ++ [(f, target)] ∧ b = true) := by
  unfold linkOp at h
  split at h
  · exact absurd h (by simp)
  · split at h
    · cases h
      exact .inl ⟨rfl, rfl⟩
    · cases h
      exact .inr ⟨rfl, rfl⟩

/-- The only error `linkOp` raises is the non-EEXIST filesystem error. -/
theorem linkOp_error {db : Db} {links : Links} {target f : Path} {e : Err}
    (h : linkOp db links target f = .error e) : e = .fsError f := by
  unfold linkOp at h
  split at h
  · cases h
    rfl
  · split at h <;> exact absurd h (by simp)

/-- The state update of the conditional link-creation step of
`linkPackage` satisfies `StepRel` and in particular preserves the pass
invariant: the name goes into the created set in the same step, and only
a name not already in the set can be traced. -/
theorem stepRel_linkStep {db : Db} {resolved : List String} {name : String}
    {toPath : Path} {st : LinkState} {links2 : Links} {b : Bool}
    {target f : Path}
    (hres : name ∉ resolved)
    (hcre : st.created.contains name = false)
    (hop : linkOp db st.links target f = .ok (links2, b)) :
    StepRel resolved st
      { links := links2, created := st.created ++ [name],
        trace := st.trace ++ (if b then [(toPath, name)] else []) } := by
  have hname : name ∉ st.created := by simpa using hcre
  have hlinks : grows st.links links2 := by
    rcases linkOp_ok hop with ⟨rfl, rfl⟩ | ⟨rfl, rfl⟩
    · exact grows_refl _
    · exact grows_append _ _
  refine ⟨hlinks, grows_append _ _, grows_append _ _, ?_, ?_⟩
  · intro e he
    rcases List.mem_append.1 he with h1 | h2
    · exact .inl h1
    · refine .inr ?_
      rcases b with _ | _
      · simp at h2
      · simp at h2
        subst h2
        exact hres
  · rintro ⟨hmemc, hnd⟩
    constructor
    · intro e he
      rcases List.mem_append.1 he with h1 | h2
      · exact List.mem_append_left _ (hmemc e h1)
      · rcases b with _ | _
        · simp at h2
        · simp at h2
          subst h2
          simp
    · rcases b with _ | _
      · simpa using hnd
      · simp only [List.map_append]
        rw [List.nodup_append]
        refine ⟨hnd, by simp, ?_⟩
        intro x hx hx2
        simp at hx2
        subst hx2
        have : x ∈ st.created := by
          simp only [List.mem_map] at hx
          obtain ⟨e, he, rfl⟩ := hx
          exact hmemc e he
        exact hname this

/-- The `foldlM` inside `go` is `linkAll`. -/
theorem linkAll_eq_foldlM (db : Db) (fuel : Nat) (deps : List String)
    (fromPath toPath : Path) (resolved : List String) :
    ∀ st, deps.foldlM
        (fun acc dep => go db fuel dep fromPath toPath acc resolved) st =
      linkAll db fuel deps fromPath toPath st resolved := by
  induction deps with
  | nil => intro st; rfl
  | cons d rest ih =>
    intro st
    rw [linkAll, List.foldlM_cons]
    cases hgo : go db fuel d fromPath toPath st resolved with
    | error e => rfl
    | ok st2 =>
      simp only [hgo]
      calc (Except.ok st2 >>= fun s =>
              rest.foldlM
                (fun acc dep => go db fuel dep fromPath toPath acc resolved)
                s) =
          rest.foldlM
            (fun acc dep => go db fuel dep fromPath toPath acc resolved)
            st2 := by rfl
        _ = linkAll db fuel rest fromPath toPath st2 resolved := ih st2

/-- The step case of `go`, re-expressed through `linkAll` for the
inductive proofs below. -/
theorem go_succ (db : Db) (fuel : Nat) (name : String)
    (fromPath toPath : Path) (st : LinkState) (resolved : List String) :
    go db (fuel + 1) name fromPath toPath st resolved =
      if resolved.contains name then .ok st
      else
        match resolvePkg db st.links name fromPath with
        | none => .error (.resolution name)
        | some pkg =>
          match
            (if nmCount pkg ≤ 1 ∧ st.created.contains name = false then
              match linkOp db st.links pkg.dropLast (pathJoin toPath name) with
              | .error e => .error e
              | .ok (links2, madeNew) =>
                .ok { links := links2
                      created := st.created ++ [name]
                      trace := st.trace ++
                        (if madeNew then [(toPath, name)] else []) }
            else .ok st : Except Err LinkState) with
          | .error e => .error e
          | .ok st2 =>
            match readManifest db st2.links pkg with
            | none => .error (.requireFail pkg)
            | some m =>
              linkAll db fuel m.dependencies pkg.dropLast toPath st2
                (resolved ++ [name]) := by
  rw [go]
  split
  · rfl
  · cases hpk : resolvePkg db st.links name fromPath with
    | none => rfl
    | some pkg =>
      simp only []
      split
      · rfl
      rename_i st2 heq
      cases hrm : readManifest db st2.links pkg with
      | none => rfl
      | some m => exact linkAll_eq_foldlM db fuel m.dependencies _ _ _ st2

/-- Joint induction: every successful (partial) run of `go` or `linkAll`
relates input to output state by `StepRel`. -/
theorem go_linkAll_rel (db : Db) : ∀ fuel : Nat,
    (∀ name fromPath toPath st resolved st2,
      go db fuel name fromPath toPath st resolved = .ok st2 →
        StepRel resolved st st2) ∧
    (∀ deps fromPath toPath st resolved st2,
      linkAll db fuel deps fromPath toPath st resolved = .ok st2 →
        StepRel resolved st st2) := by
  intro fuel
  induction fuel with
  | zero =>
    constructor
    · intro name fromPath toPath st resolved st2 h
      simp [go] at h
    · intro deps
      induction deps with
      | nil =>
        intro fromPath toPath st resolved st2 h
        rw [linkAll] at h
        cases h
        exact stepRel_refl _ _
      | cons d rest ih =>
        intro fromPath toPath st resolved st2 h
        rw [linkAll] at h
        simp [go] at h
  | succ fuel ih =>
    have hgo : ∀ name fromPath toPath st resolved st2,
        go db (fuel + 1) name fromPath toPath st resolved = .ok st2 →
          StepRel resolved st st2 := by
      intro name fromPath toPath st resolved st2 h
      rw [go_succ] at h
      split at h
      · cases h
        exact stepRel_refl _ _
      rename_i hres
      split at h
      · exact absurd h (by simp)
      rename_i pkg hpk
      split at h
      · exact absurd h (by simp)
      rename_i stMid hstep
      have hmid : StepRel resolved st stMid := by
        split at hstep
        · rename_i hcond
          split at hstep
          · exact absurd hstep (by simp)
          rename_i links2 madeNew hop
          cases hstep
          exact stepRel_linkStep (by simpa using hres) hcond.2 hop
        · cases hstep
          exact stepRel_refl _ _
      split at h
      · exact absurd h (by simp)
      rename_i m hrm
      exact stepRel_comp hmid (ih.2 m.dependencies _ _ _ _ _ h)
    refine ⟨hgo, ?_⟩
    intro deps
    induction deps with
    | nil =>
      intro fromPath toPath st resolved st2 h
      rw [linkAll] at h
      cases h
      exact stepRel_refl _ _
    | cons d rest ihd =>
      intro fromPath toPath st resolved st2 h
      rw [linkAll] at h
      cases hd : go db (fuel + 1) d fromPath toPath st resolved with
      | error e => rw [hd] at h; exact absurd h (by simp)
      | ok stMid =>
        rw [hd] at h
        exact stepRel_trans (hgo _ _ _ _ _ _ hd) (ihd _ _ _ _ _ h)

/-- Specialisation of `go_linkAll_rel` to `linkPackage`. -/
theorem linkPackage_rel {db : Db} {name : String} {fromPath toPath : Path}
    {st : LinkState} {resolved : List String} {st2 : LinkState}
    (h : linkPackage db name fromPath toPath st resolved = .ok st2) :
    StepRel resolved st st2 :=
  (go_linkAll_rel db (fuelFor db)).1 name fromPath toPath st resolved st2 h

/-- A pass's fan-out over its direct dependencies also satisfies
`StepRel` with the empty ancestry. -/
theorem passAll_rel {db : Db} (deps : List String) (linkagePath : Path) :
    ∀ st st2, passAll db deps linkagePath st = .ok st2 →
      StepRel [] st st2 := by
  induction deps with
  | nil =>
    intro st st2 h
    rw [passAll] at h
    cases h
    exact stepRel_refl _ _
  | cons d rest ih =>
    intro st st2 h
    rw [passAll] at h
    cases hd : linkPackage db d linkagePath (linkagePath ++ [nmSeg]) st []
      with
    | error e => rw [hd] at h; exact absurd h (by simp)
    | ok stMid =>
      rw [hd] at h
      exact stepRel_trans (linkPackage_rel hd) (ih _ _ h)

/-- A successful linkage pass only appends links, and its final state
satisfies the pass invariant. -/
theorem processLinkages_ok {db : Db} {linkagePath : Path} {links0 : Links}
    {st : LinkState} (h : processLinkages db linkagePath links0 = .ok st) :
    grows links0 st.links ∧ Inv st := by
  rw [processLinkages] at h
  split at h
  · exact absurd h (by simp)
  rename_i m hm
  have hrel := passAll_rel m.dependencies linkagePath _ _ h
  exact ⟨hrel.1, hrel.2.2.2.2 ⟨by simp, by simp⟩⟩

/-- `runPasses` only appends links. -/
theorem runPasses_grows {db : Db} : ∀ (roots : List Path) (links : Links)
    (trace : List (Path × String)) (out : Links × List (Path × String)),
    runPasses db roots links trace = .ok out → grows links out.1 := by
  intro roots
  induction roots with
  | nil =>
    intro links trace out h
    rw [runPasses] at h
    cases h
    exact grows_refl _
  | cons r rest ih =>
    intro links trace out h
    rw [runPasses] at h
    cases hr : processLinkages db r links with
    | error e => rw [hr] at h; exact absurd h (by simp)
    | ok st =>
      rw [hr] at h
      exact grows_trans (processLinkages_ok hr).1 (ih _ _ _ h)

/-- `initialise` only appends links to the live link set. -/
theorem initialise_grows {db : Db} {s : Settings} {links0 : Links}
    {out : Links × List (Path × String)}
    (h : initialise db s links0 = .ok out) : grows links0 out.1 := by
  rw [initialise] at h
  split at h
  · exact absurd h (by simp)
  rename_i tm htm
  split at h
  · exact absurd h (by simp)
  rename_i rm hrm
  exact runPasses_grows _ _ _ _ h

/-- Any manifest obtained by `readManifest` is a manifest of the static
database (links only redirect back into it). -/
theorem readManifest_mem {db : Db} {links : Links} {p : Path}
    {m : Manifest} (h : readManifest db links p = some m) :
    m ∈ db.map (fun e => e.2) := by
  rw [readManifest] at h
  split at h
  · rename_i m2 hl
    cases h
    rw [lookupDb] at hl
    cases hf : db.find? (fun e => e.1 == p) with
    | none => rw [hf] at hl; simp at hl
    | some e =>
      rw [hf] at hl
      simp at hl
      subst hl
      exact List.mem_map_of_mem _ (List.mem_of_find?_eq_some hf)
  · split at h
    · rename_i l hl
      rw [lookupDb] at h
      cases hf : db.find? (fun e => e.1 == l.2 ++ [pjSeg]) with
      | none => rw [hf] at h; simp at h
      | some e =>
        rw [hf] at h
        simp at h
        subst h
        exact List.mem_map_of_mem _ (List.mem_of_find?_eq_some hf)
    · simp at h

/-- Dependencies of database manifests lie in the dependency universe. -/
theorem mem_depUniverse {db : Db} {m : Manifest} {d : String}
    (hm : m ∈ db.map (fun e => e.2)) (hd : d ∈ m.dependencies) :
    d ∈ depUniverse db := by
  rw [depUniverse, List.mem_flatten]
  obtain ⟨e, he, rfl⟩ := List.mem_map.1 hm
  exact ⟨e.2.dependencies, List.mem_map_of_mem _ he, hd⟩

/-- Filtering with the extended ancestry never keeps more names. -/
theorem filter_step_le (resolved : List String) (name : String) :
    ∀ U : List String,
      (U.filter (fun n => !((resolved ++ [name]).contains n))).length ≤
        (U.filter (fun n => !(resolved.contains n))).length := by
  intro U
  induction U with
  | nil => simp
  | cons u U ih =>
    by_cases hu : u ∈ resolved
    · rw [List.filter_cons_of_neg (by simp [hu]),
        @List.filter_cons_of_neg _ (fun n => !(resolved.contains n)) _ _
          (by simp [hu])]
      exact ih
    · rw [@List.filter_cons_of_pos _ (fun n => !(resolved.contains n)) _ _
        (by simp [hu])]
      by_cases hn : u = name
      · rw [List.filter_cons_of_neg (by simp [hn])]
        simp only [List.length_cons]
        omega
      · rw [List.filter_cons_of_pos (by simp [hu, hn])]
        simp only [List.length_cons]
        omega

/-- Filtering with the ancestry extended by a universe name strictly
shrinks the kept-name count. -/
theorem filter_step_lt {resolved : List String} {name : String}
    {U : List String} (hmem : name ∈ U) (hres : name ∉ resolved) :
    (U.filter (fun n => !((resolved ++ [name]).contains n))).length <
      (U.filter (fun n => !(resolved.contains n))).length := by
  induction U with
  | nil => simp at hmem
  | cons u U ih =>
    rcases List.mem_cons.1 hmem with rfl | hmem2
    · rw [List.filter_cons_of_neg (by simp),
        @List.filter_cons_of_pos _ (fun n => !(resolved.contains n)) _ _
          (by simp [hres])]
      simp only [List.length_cons]
      have := filter_step_le resolved name U
      omega
    · have hle := ih hmem2
      by_cases hu : u ∈ resolved
      · rw [List.filter_cons_of_neg (by simp [hu]),
          @List.filter_cons_of_neg _ (fun n => !(resolved.contains n)) _ _
            (by simp [hu])]
        exact hle
      · rw [@List.filter_cons_of_pos _ (fun n => !(resolved.contains n)) _ _
          (by simp [hu])]
        by_cases hn : u = name
        · rw [List.filter_cons_of_neg (by simp [hn])]
          simp only [List.length_cons]
          omega
        · rw [List.filter_cons_of_pos (by simp [hu, hn])]
          simp only [List.length_cons]
          omega

/-- Extending the ancestry by a name outside the universe keeps the
count unchanged. -/
theorem filter_step_eq {resolved : List String} {name : String}
    {U : List String} (hmem : name ∉ U) :
    (U.filter (fun n => !((resolved ++ [name]).contains n))).length =
      (U.filter (fun n => !(resolved.contains n))).length := by
  have : ∀ n ∈ U, (!((resolved ++ [name]).contains n)) =
      (!(resolved.contains n)) := by
    intro n hn
    have : n ≠ name := by
      intro h
      exact hmem (h ▸ hn)
    simp [this]
  rw [List.filter_congr this]

/-- The measure strictly decreases from a call to each of its recursive
calls. -/
theorem mea_step {db : Db} {d name : String} {resolved : List String}
    (hd : d ∈ depUniverse db) (hres : name ∉ resolved) :
    mea db d (resolved ++ [name]) < mea db name resolved := by
  rw [mea, mea, if_pos hd]
  by_cases hn : name ∈ depUniverse db
  · rw [if_pos hn]
    have := filter_step_lt hn hres
    omega
  · rw [if_neg hn]
    have := @filter_step_eq resolved name (depUniverse db) hn
    omega

/-- Joint induction: with fuel above the measure, neither `go` nor
`linkAll` ever runs out of fuel. -/
theorem go_linkAll_no_fuel (db : Db) : ∀ fuel : Nat,
    (∀ name fromPath toPath st resolved, mea db name resolved < fuel →
      go db fuel name fromPath toPath st resolved ≠ .error .fuel) ∧
    (∀ deps fromPath toPath st resolved,
      (∀ d ∈ deps, mea db d resolved < fuel) →
      linkAll db fuel deps fromPath toPath st resolved ≠ .error .fuel) := by
  intro fuel
  induction fuel with
  | zero =>
    constructor
    · intro name fromPath toPath st resolved hlt
      exact absurd hlt (Nat.not_lt_zero _)
    · intro deps fromPath toPath st resolved hlt
      cases deps with
      | nil => rw [linkAll]; simp
      | cons d rest =>
        exact absurd (hlt d (by simp)) (Nat.not_lt_zero _)
  | succ fuel ih =>
    have hgo : ∀ name fromPath toPath st resolved,
        mea db name resolved < fuel + 1 →
        go db (fuel + 1) name fromPath toPath st resolved ≠
          .error .fuel := by
      intro name fromPath toPath st resolved hlt
      rw [go_succ]
      split
      · simp
      rename_i hres
      have hres2 : name ∉ resolved := by simpa using hres
      split
      · simp
      rename_i pkg hpk
      split
      · rename_i e heq
        split at heq
        · split at heq
          · rename_i hop
            cases heq
            rw [linkOp_error hop]
            simp
          · exact absurd heq (by simp)
        · exact absurd heq (by simp)
      rename_i st2 heq
      split
      · simp
      rename_i m hrm
      refine ih.2 m.dependencies _ _ _ _ ?_
      intro d hd
      have hdu : d ∈ depUniverse db :=
        mem_depUniverse (readManifest_mem hrm) hd
      have := @mea_step db d name resolved hdu hres2
      omega
    refine ⟨hgo, ?_⟩
    intro deps
    induction deps with
    | nil =>
      intro fromPath toPath st resolved hlt
      rw [linkAll]
      simp
    | cons d rest ihd =>
      intro fromPath toPath st resolved hlt
      rw [linkAll]
      cases hd : go db (fuel + 1) d fromPath toPath st resolved with
      | error e =>
        have : e ≠ .fuel := by
          intro he
          subst he
          exact hgo d fromPath toPath st resolved (hlt d (by simp)) hd
        simpa using this
      | ok st2 =>
        exact ihd _ _ st2 _ (fun d2 hd2 => hlt d2 (by simp [hd2]))

/-- The fuel supplied by `linkPackage` is always sufficient: the embedded
recursion never runs out of fuel, which renders the termination of the
source recursion. -/
theorem linkPackage_no_fuel_error (db : Db) (name : String)
    (fromPath toPath : Path) (st : LinkState) (resolved : List String) :
    linkPackage db name fromPath toPath st resolved ≠ .error .fuel := by
  rw [linkPackage]
  refine (go_linkAll_no_fuel db (fuelFor db)).1 name fromPath toPath st
    resolved ?_
  rw [mea, fuelFor]
  have hle : ((depUniverse db).filter
      (fun n => !(resolved.contains n))).length ≤
      (depUniverse db).length := List.length_filter_le _ _
  split <;> omega

/-! ### Lemmas about the cleanup model -/

/-- A vanishing entry list consists of symlinks and scoped directories. -/
theorem vanishesList_imp_allLS : ∀ es,
    vanishesList es = true → allLinkOrScoped es = true := by
  intro es
  induction es with
  | nil => intro h; rfl
  | cons e rest ih =>
    obtain ⟨n, c⟩ := e
    intro h
    rw [vanishesList] at h
    simp only [Bool.and_eq_true, Bool.or_eq_true] at h
    obtain ⟨h1, h2⟩ := h
    rw [allLinkOrScoped, List.all_cons]
    simp only [Bool.and_eq_true, Bool.or_eq_true]
    refine ⟨?_, by simpa [allLinkOrScoped] using ih h2⟩
    rcases h1 with hl | hs
    · exact .inl hl
    · refine .inr ?_
      rw [isScopedEntry]
      simp only [Bool.and_eq_true]
      exact hs.1

mutual

/-- Characterisation of `cleanNode`: its success flag is `cleanOkB` and
it removes the node exactly when the node cleans successfully and
vanishes. -/
theorem cleanNode_spec : ∀ n : FNode,
    (cleanNode n).ok = cleanOkB n ∧
      ((cleanNode n).node = none ↔
        (cleanOkB n = true ∧ vanishesB n = true)) := by
  intro n
  cases n with
  | file a => simp [cleanNode, cleanOkB, vanishesB]
  | link => simp [cleanNode, cleanOkB, vanishesB]
  | dir entries =>
    have hl := cleanList_spec entries
    rw [cleanNode]
    by_cases hok : (cleanList entries).2 = false
    · rw [if_pos hok]
      have hco : childrenOk entries = false := hl.1.symm.trans hok
      constructor
      · rw [cleanOkB, hco]
        simp
      · rw [cleanOkB, hco]
        simp
    · rw [if_neg hok]
      have hok2 : (cleanList entries).2 = true := by
        cases h2 : (cleanList entries).2
        · exact absurd h2 hok
        · rfl
      have hco : childrenOk entries = true := hl.1.symm.trans hok2
      by_cases hall : allLinkOrScoped entries = true
      · rw [if_pos hall]
        by_cases hemp : (cleanList entries).1.isEmpty
        · rw [if_pos hemp]
          have hvan : vanishesList entries = true :=
            (hl.2 hco).1 (List.isEmpty_iff.1 hemp)
          constructor
          · rw [cleanOkB, hco, hvan]
            simp
          · rw [vanishesB, hvan, cleanOkB, hco, hvan]
            simp
        · rw [if_neg hemp]
          have hvan : vanishesList entries = false := by
            cases hv : vanishesList entries
            · rfl
            · exact absurd (List.isEmpty_iff.2 ((hl.2 hco).2 hv)) hemp
          constructor
          · rw [cleanOkB, hco, hvan, hall]
            simp
          · rw [cleanOkB, hco, hvan, hall]
            simp
      · rw [if_neg hall]
        have hvan : vanishesList entries = false := by
          cases hv : vanishesList entries
          · rfl
          · exact absurd (vanishesList_imp_allLS entries hv) hall
        have hallf : allLinkOrScoped entries = false := by
          cases ha : allLinkOrScoped entries
          · rfl
          · exact absurd ha hall
        constructor
        · rw [cleanOkB, hco, hallf]
          simp
        · rw [cleanOkB, vanishesB, hvan]
          simp

/-- Characterisation of `cleanList`: its success flag is `childrenOk`,
and (under success) it empties the level exactly when the entries all
vanish. -/
theorem cleanList_spec : ∀ es : List (String × FNode),
    (cleanList es).2 = childrenOk es ∧
      (childrenOk es = true →
        (((cleanList es).1 = []) ↔ vanishesList es = true)) := by
  intro es
  cases es with
  | nil => simp [cleanList, childrenOk, vanishesList]
  | cons e rest =>
    obtain ⟨n, c⟩ := e
    have hr := cleanList_spec rest
    cases c with
    | file a =>
      have e1 : cleanList ((n, FNode.file a) :: rest) =
          ((n, FNode.file a) :: (cleanList rest).1,
            (cleanList rest).2) := rfl
      have e2 : childrenOk ((n, FNode.file a) :: rest) =
          childrenOk rest := rfl
      have e3 : vanishesList ((n, FNode.file a) :: rest) = false := rfl
      rw [e1, e2, e3]
      exact ⟨hr.1, by intro hco; simp⟩
    | link =>
      have e1 : cleanList ((n, FNode.link) :: rest) = cleanList rest := rfl
      have e2 : childrenOk ((n, FNode.link) :: rest) =
          childrenOk rest := rfl
      have e3 : vanishesList ((n, FNode.link) :: rest) =
          vanishesList rest := rfl
      rw [e1, e2, e3]
      exact ⟨hr.1, hr.2⟩
    | dir ces =>
      have hn := cleanNode_spec (FNode.dir ces)
      have e2 : childrenOk ((n, FNode.dir ces) :: rest) =
          ((!startsWithAt n || cleanOkB (FNode.dir ces)) &&
            childrenOk rest) := rfl
      have e3 : vanishesList ((n, FNode.dir ces) :: rest) =
          ((startsWithAt n && vanishesB (FNode.dir ces)) &&
            vanishesList rest) := rfl
      by_cases hat : startsWithAt n = true
      · have e1 : cleanList ((n, FNode.dir ces) :: rest) =
            (match (cleanNode (FNode.dir ces)).node with
             | none => ((cleanList rest).1,
                 (cleanNode (FNode.dir ces)).ok && (cleanList rest).2)
             | some c2 => ((n, c2) :: (cleanList rest).1,
                 (cleanNode (FNode.dir ces)).ok && (cleanList rest).2)) := by
          rw [cleanList]
          simp [FNode.isLink, FNode.isDir, hat]
        rw [e1, e2, e3, hat]
        simp only [Bool.not_true, Bool.false_or, Bool.true_and]
        cases hnode : (cleanNode (FNode.dir ces)).node with
        | none =>
          have hvc := hn.2.1 hnode
          simp only []
          constructor
          · rw [hn.1, hr.1]
          · intro hco
            simp only [Bool.and_eq_true] at hco
            rw [hvc.2]
            simp only [Bool.true_and]
            exact hr.2 hco.2
        | some c2 =>
          simp only []
          constructor
          · rw [hn.1, hr.1]
          · intro hco
            simp only [Bool.and_eq_true] at hco
            have hvc : vanishesB (FNode.dir ces) = false := by
              cases hv : vanishesB (FNode.dir ces)
              · rfl
              · exact absurd (hn.2.2 ⟨hco.1, hv⟩) (by simp [hnode])
            rw [hvc]
            simp
      · have hatf : startsWithAt n = false := by
          cases ha : startsWithAt n
          · rfl
          · exact absurd ha hat
        have e1 : cleanList ((n, FNode.dir ces) :: rest) =
            ((n, FNode.dir ces) :: (cleanList rest).1,
              (cleanList rest).2) := by
          rw [cleanList]
          simp [FNode.isLink, FNode.isDir, hatf]
        rw [e1, e2, e3, hatf]
        simp only [Bool.not_false, Bool.true_or, Bool.true_and,
          Bool.false_and]
        exact ⟨hr.1, by intro hco; simp⟩

end

mutual

/-- `cleanNode` preserves the regular files of the tree exactly. -/
theorem filesOf_cleanNode : ∀ n : FNode,
    filesOfOpt (cleanNode n).node = filesOf n := by
  intro n
  cases n with
  | file a => rfl
  | link => rfl
  | dir entries =>
    have hl := filesOf_cleanList entries
    rw [cleanNode]
    by_cases hok : (cleanList entries).2 = false
    · rw [if_pos hok]
      rw [filesOfOpt, filesOf]
      exact hl
    · rw [if_neg hok]
      by_cases hall : allLinkOrScoped entries = true
      · rw [if_pos hall]
        by_cases hemp : (cleanList entries).1.isEmpty
        · rw [if_pos hemp]
          rw [filesOfOpt, filesOf]
          rw [← hl, List.isEmpty_iff.1 hemp]
          rfl
        · rw [if_neg hemp]
          rw [filesOfOpt, filesOf]
          exact hl
      · rw [if_neg hall]
        rw [filesOfOpt, filesOf]
        exact hl

/-- `cleanList` preserves the regular files of the level exactly. -/
theorem filesOf_cleanList : ∀ es : List (String × FNode),
    filesOfList (cleanList es).1 = filesOfList es := by
  intro es
  cases es with
  | nil => rfl
  | cons e rest =>
    obtain ⟨n, c⟩ := e
    have hr := filesOf_cleanList rest
    cases c with
    | file a =>
      have e1 : cleanList ((n, FNode.file a) :: rest) =
          ((n, FNode.file a) :: (cleanList rest).1,
            (cleanList rest).2) := rfl
      rw [e1]
      rw [filesOfList, filesOfList, hr]
    | link =>
      have e1 : cleanList ((n, FNode.link) :: rest) = cleanList rest := rfl
      rw [e1, hr]
      rw [filesOfList]
      simp [filesOf]
    | dir ces =>
      have hn := filesOf_cleanNode (FNode.dir ces)
      by_cases hat : startsWithAt n = true
      · have e1 : cleanList ((n, FNode.dir ces) :: rest) =
            (match (cleanNode (FNode.dir ces)).node with
             | none => ((cleanList rest).1,
                 (cleanNode (FNode.dir ces)).ok && (cleanList rest).2)
             | some c2 => ((n, c2) :: (cleanList rest).1,
                 (cleanNode (FNode.dir ces)).ok && (cleanList rest).2)) := by
          rw [cleanList]
          simp [FNode.isLink, FNode.isDir, hat]
        rw [e1]
        cases hnode : (cleanNode (FNode.dir ces)).node with
        | none =>
          have hfe : filesOf (FNode.dir ces) = [] := by
            rw [← hn, hnode]
            rfl
          simp only []
          rw [hr, filesOfList, hfe]
          simp
        | some c2 =>
          have hfe : filesOf c2 = filesOf (FNode.dir ces) := by
            rw [← hn, hnode]
            rfl
          simp only []
          rw [filesOfList, filesOfList, hr, hfe]
      · have hatf : startsWithAt n = false := by
          cases ha : startsWithAt n
          · rfl
          · exact absurd ha hat
        have e1 : cleanList ((n, FNode.dir ces) :: rest) =
            ((n, FNode.dir ces) :: (cleanList rest).1,
              (cleanList rest).2) := by
          rw [cleanList]
          simp [FNode.isLink, FNode.isDir, hatf]
        rw [e1]
        rw [filesOfList, filesOfList, hr]

end

/-- An entry that is neither a symlink nor a scoped directory survives
`cleanList` untouched. -/
theorem cleanList_keeps : ∀ (es : List (String × FNode)) (n : String)
    (c : FNode), (n, c) ∈ es → c.isLink = false →
    (c.isDir && startsWithAt n) = false → (n, c) ∈ (cleanList es).1 := by
  intro es
  induction es with
  | nil => intro n c h; simp at h
  | cons e rest ih =>
    obtain ⟨m, d⟩ := e
    intro n c hmem hlink hscope
    rcases List.mem_cons.1 hmem with heq | htail
    · injection heq with h1 h2
      subst h1
      subst h2
      rw [cleanList]
      simp only [hlink, Bool.false_eq_true, if_false]
      rw [if_neg (by simp [hscope])]
      exact List.mem_cons_self _ _
    · have hin := ih n c htail hlink hscope
      rw [cleanList]
      simp only []
      split
      · exact hin
      · split
        · cases hnode : (cleanNode d).node with
          | none => simp only [hnode]; exact hin
          | some c2 => simp only [hnode]; exact List.mem_cons_of_mem _ hin
        · exact List.mem_cons_of_mem _ hin

/-- A level containing an entry that is neither a symlink nor a scoped
directory never has its directory removed: the filtered `contents` list
is non-empty, so `rmdir` is not even attempted. -/
theorem cleanNode_keeps_dir {es : List (String × FNode)}
    (hall : allLinkOrScoped es = false) :
    (cleanNode (FNode.dir es)).node = some (FNode.dir (cleanList es).1) := by
  rw [cleanNode]
  by_cases hok : (cleanList es).2 = false
  · rw [if_pos hok]
  · rw [if_neg hok, if_neg (by simp [hall])]

/-- An entry that is neither a symlink nor a scoped directory falsifies
`allLinkOrScoped`. -/
theorem allLS_false_of_entry {es : List (String × FNode)} {n : String}
    {c : FNode} (hmem : (n, c) ∈ es) (hlink : c.isLink = false)
    (hscope : (c.isDir && startsWithAt n) = false) :
    allLinkOrScoped es = false := by
  cases ha : allLinkOrScoped es
  · rfl
  · exfalso
    rw [allLinkOrScoped] at ha
    have := List.all_eq_true.1 ha (n, c) hmem
    rw [isScopedEntry] at this
    simp only [hlink, hscope] at this
    simp at this

/-! ### One-step unfolding lemmas for the linkage recursion -/

theorem go_succ_noresolve {db : Db} {fuel : Nat} {name : String}
    {fromPath toPath : Path} {st : LinkState} {resolved : List String}
    (hres : resolved.contains name = false)
    (hpk : resolvePkg db st.links name fromPath = none) :
    go db (fuel + 1) name fromPath toPath st resolved =
      .error (.resolution name) := by
  rw [go_succ]
  simp only [hres, Bool.false_eq_true, if_false, hpk]

theorem go_succ_deep {db : Db} {fuel : Nat} {name : String}
    {fromPath toPath : Path} {st : LinkState} {resolved : List String}
    {pkg : Path}
    (hres : resolved.contains name = false)
    (hpk : resolvePkg db st.links name fromPath = some pkg)
    (hcnt : ¬(nmCount pkg ≤ 1 ∧ st.created.contains name = false)) :
    go db (fuel + 1) name fromPath toPath st resolved =
      match readManifest db st.links pkg with
      | none => .error (.requireFail pkg)
      | some m =>
        linkAll db fuel m.dependencies pkg.dropLast toPath st
          (resolved ++ [name]) := by
  rw [go_succ]
  simp only [hres, Bool.false_eq_true, if_false, hpk, if_neg hcnt]

theorem go_succ_shallow {db : Db} {fuel : Nat} {name : String}
    {fromPath toPath : Path} {st : LinkState} {resolved : List String}
    {pkg : Path} {links2 : Links} {madeNew : Bool}
    (hres : resolved.contains name = false)
    (hpk : resolvePkg db st.links name fromPath = some pkg)
    (hcnt : nmCount pkg ≤ 1 ∧ st.created.contains name = false)
    (hop : linkOp db st.links pkg.dropLast (pathJoin toPath name) =
      .ok (links2, madeNew)) :
    go db (fuel + 1) name fromPath toPath st resolved =
      (match readManifest db links2 pkg with
       | none => .error (.requireFail pkg)
       | some m =>
         linkAll db fuel m.dependencies pkg.dropLast toPath
           { links := links2, created := st.created ++ [name],
             trace := st.trace ++
               (if madeNew then [(toPath, name)] else []) }
           (resolved ++ [name])) := by
  rw [go_succ]
  simp only [hres, Bool.false_eq_true, if_false, hpk, if_pos hcnt, hop]

theorem go_succ_fsError {db : Db} {fuel : Nat} {name : String}
    {fromPath toPath : Path} {st : LinkState} {resolved : List String}
    {pkg : Path} {e : Err}
    (hres : resolved.contains name = false)
    (hpk : resolvePkg db st.links name fromPath = some pkg)
    (hcnt : nmCount pkg ≤ 1 ∧ st.created.contains name = false)
    (hop : linkOp db st.links pkg.dropLast (pathJoin toPath name) =
      .error e) :
    go db (fuel + 1) name fromPath toPath st resolved = .error e := by
  rw [go_succ]
  simp only [hres, Bool.false_eq_true, if_false, hpk, if_pos hcnt, hop]

/-! ### Lemmas about cached manifest reads -/

theorem requireSeq_cached (disk : Path → Nat → Manifest) :
    ∀ (ps : List Path) (t : Nat) (cache : List (Path × Manifest))
      (p : Path) (en : Path × Manifest),
      cache.find? (fun e => e.1 == p) = some en →
      ∀ i : Nat, ps.get? i = some p →
      (requireSeq disk ps t cache).get? i = some en.2 := by
  intro ps
  induction ps with
  | nil => intro t cache p en hc i hp; simp at hp
  | cons q rest ih =>
    intro t cache p en hc i hp
    cases hf : cache.find? (fun e => e.1 == q) with
    | some eq2 =>
      have e1 : requireSeq disk (q :: rest) t cache =
          eq2.2 :: requireSeq disk rest (t + 1) cache := by
        rw [requireSeq.eq_def]
        simp only [hf]
      rw [e1]
      cases i with
      | zero =>
        simp only [List.get?] at hp ⊢
        have hq : q = p := by injection hp
        subst hq
        rw [hf] at hc
        injection hc with hc2
        rw [hc2]
      | succ i2 =>
        simp only [List.get?] at hp ⊢
        exact ih (t + 1) cache p en hc i2 hp
    | none =>
      have e1 : requireSeq disk (q :: rest) t cache =
          disk q t :: requireSeq disk rest (t + 1)
            (cache ++ [(q, disk q t)]) := by
        rw [requireSeq.eq_def]
        simp only [hf]
      rw [e1]
      cases i with
      | zero =>
        simp only [List.get?] at hp
        have hq : q = p := by injection hp
        subst hq
        rw [hf] at hc
        cases hc
      | succ i2 =>
        simp only [List.get?] at hp ⊢
        have hc2 : (cache ++ [(q, disk q t)]).find?
            (fun e => e.1 == p) = some en := by
          rw [List.find?_append, hc]
          rfl
        exact ih (t + 1) _ p en hc2 i2 hp

/-! ### Lemmas about workspace selection -/

theorem foldl_push_filter (p : String → Bool) :
    ∀ (l acc : List String),
      l.foldl (fun acc w => if p w then acc ++ [w] else acc) acc =
        acc ++ l.filter p := by
  intro l
  induction l with
  | nil => intro acc; simp
  | cons w rest ih =>
    intro acc
    rw [List.foldl_cons]
    by_cases hw : p w = true
    · rw [if_pos hw, ih, List.filter_cons_of_pos hw]
      simp
    · rw [if_neg hw, ih, List.filter_cons_of_neg hw]

theorem getWorkspaceDependencies_eq_filter (tm rm : Manifest) :
    getWorkspaceDependencies tm rm =
      rm.workspaces.filter (fun w => tm.dependencies.contains w) := by
  rw [getWorkspaceDependencies, foldl_push_filter]
  simp only [List.nil_append]

theorem count_map_inj (f : String → Path) (w : String) :
    ∀ xs : List String, (∀ v ∈ xs, f v = f w → v = w) →
      (xs.map f).count (f w) = xs.count w := by
  intro xs
  induction xs with
  | nil => intro hinj; rfl
  | cons x rest ih =>
    intro hinj
    rw [List.map_cons, List.count_cons, List.count_cons]
    rw [ih (fun v hv => hinj v (List.mem_cons_of_mem _ hv))]
    by_cases hx : x = w
    · subst hx
      simp
    · have hfx : ¬(f x = f w) := fun he =>
        hx (hinj x (List.mem_cons_self _ _) he)
      simp [hx, hfx]

/-- `linkPackage` supplies fuel in successor shape, so `go_succ` applies. -/
theorem linkPackage_eq_succ (db : Db) (name : String)
    (fromPath toPath : Path) (st : LinkState) (resolved : List String) :
    linkPackage db name fromPath toPath st resolved =
      go db ((2 * (depUniverse db).length + 1) + 1) name fromPath toPath st
        resolved := rfl

/-! ### The claims -/

/-- C1: `linkPackage` terminates on every dependency graph, including
cyclic ones.  A call whose package name is already in the ancestry list
returns immediately with no link created and no recursion (the state is
returned untouched); the embedded recursion never exhausts its fuel on
any input (rendering termination); and for the two-cycle A -> B -> A,
linking A terminates and produces exactly one link for A and one for B. -/
theorem c1_cycle_termination :
    (∀ (db : Db) (name : String) (fromPath toPath : Path) (st : LinkState)
        (resolved : List String), name ∈ resolved →
        linkPackage db name fromPath toPath st resolved = .ok st) ∧
    (∀ (db : Db) (name : String) (fromPath toPath : Path) (st : LinkState)
        (resolved : List String),
        linkPackage db name fromPath toPath st resolved ≠ .error .fuel) ∧
    processLinkages cycleDb appPath [] = .ok
      { links := [(appPath ++ [nmSeg, "A"], wsRoot ++ [nmSeg, "A"]),
                  (appPath ++ [nmSeg, "B"], wsRoot ++ [nmSeg, "B"])],
        created := ["A", "B"],
        trace := [(appPath ++ [nmSeg], "A"),
                  (appPath ++ [nmSeg], "B")] } := by
  refine ⟨?_, linkPackage_no_fuel_error, by decide⟩
  intro db name fromPath toPath st resolved h
  rw [linkPackage_eq_succ, go_succ, if_pos (by simpa using h)]

/-- Witness for C1 at a concrete input: a call whose name is already in
the ancestry is an immediate no-op. -/
theorem c1_witness :
    linkPackage cycleDb "A" wsRoot appPath
      { links := [], created := [], trace := [] } ["A"] =
      .ok { links := [], created := [], trace := [] } :=
  c1_cycle_termination.1 cycleDb "A" wsRoot appPath
    { links := [], created := [], trace := [] } ["A"] (by decide)

/-- C2: within one linkage pass (one shared created set), at most one
symlink is created per (destination directory, package name) pair - the
creation trace of a successful pass never repeats a name, the destination
being the pass's single `node_modules` directory - and for the diamond
A -> B, A -> C, B -> D, C -> D, exactly one link for D is created. -/
theorem c2_created_set_dedup :
    (∀ (db : Db) (linkagePath : Path) (links0 : Links) (st : LinkState),
        processLinkages db linkagePath links0 = .ok st →
        (st.trace.map (fun e => e.2)).Nodup ∧ st.trace.Nodup) ∧
    processLinkages diamondDb appPath [] = .ok
      { links := [(appPath ++ [nmSeg, "A"], wsRoot ++ [nmSeg, "A"]),
                  (appPath ++ [nmSeg, "B"], wsRoot ++ [nmSeg, "B"]),
                  (appPath ++ [nmSeg, "D"], wsRoot ++ [nmSeg, "D"]),
                  (appPath ++ [nmSeg, "C"], wsRoot ++ [nmSeg, "C"])],
        created := ["A", "B", "D", "C"],
        trace := [(appPath ++ [nmSeg], "A"), (appPath ++ [nmSeg], "B"),
                  (appPath ++ [nmSeg], "D"),
                  (appPath ++ [nmSeg], "C")] } := by
  refine ⟨?_, by decide⟩
  intro db linkagePath links0 st h
  have hmapnd := (processLinkages_ok h).2.2
  exact ⟨hmapnd, List.Nodup.of_map _ hmapnd⟩

/-- Witness for C2: the dedup statement applied to the diamond pass. -/
theorem c2_witness :
    (({ links := [(appPath ++ [nmSeg, "A"], wsRoot ++ [nmSeg, "A"]),
                  (appPath ++ [nmSeg, "B"], wsRoot ++ [nmSeg, "B"]),
                  (appPath ++ [nmSeg, "D"], wsRoot ++ [nmSeg, "D"]),
                  (appPath ++ [nmSeg, "C"], wsRoot ++ [nmSeg, "C"])],
        created := ["A", "B", "D", "C"],
        trace := [(appPath ++ [nmSeg], "A"), (appPath ++ [nmSeg], "B"),
                  (appPath ++ [nmSeg], "D"), (appPath ++ [nmSeg], "C")] }
        : LinkState).trace.map (fun e => e.2)).Nodup :=
  (c2_created_set_dedup.1 diamondDb appPath [] _ (by decide)).1

/-- C3 counterexample: with workspaces `["w1"]` and the target depending
on `w1`, the workspace path appears TWICE in the list of linkage roots
`initialise` processes, not once as the claim states. -/
theorem c3_counterexample :
    (linkagePassRoots ⟨["w1"], []⟩ ⟨[], ["w1"]⟩ svcSettings).count
        (wsRoot ++ ["w1"]) = 2 ∧
      ¬((linkagePassRoots ⟨["w1"], []⟩ ⟨[], ["w1"]⟩ svcSettings).count
        (wsRoot ++ ["w1"]) = 1) := by decide

/-- C3 amended: `initialise` runs TWO linkage passes for each selected
workspace path (the selection is computed once by
`getWorkspaceDependencies` and once more by the duplicated loop of
src/index.js lines 147-152, and the two lists are concatenated) and
exactly one pass for the target path; passes do not share state - in the
concrete two-workspace scenario each of the two selected workspaces gets
its own `lodash` link traced under its own destination directory even
though a cross-pass shared set would have deduplicated them. -/
theorem c3_two_passes_per_workspace :
    (∀ (tm rm : Manifest) (s : Settings) (w : String),
        w ∈ rm.workspaces → tm.dependencies.contains w = true →
        rm.workspaces.count w = 1 →
        (∀ v ∈ rm.workspaces, tm.dependencies.contains v = true →
          s.workspacePath ++ splitSeg v = s.workspacePath ++ splitSeg w →
          v = w) →
        (∀ v ∈ rm.workspaces, s.path ≠ s.workspacePath ++ splitSeg v) →
        (linkagePassRoots tm rm s).count
            (s.workspacePath ++ splitSeg w) = 2 ∧
          (linkagePassRoots tm rm s).count s.path = 1) ∧
    initialise crossDb svcSettings crossLinks0 = .ok
      (crossLinks0 ++
        [(wsRoot ++ ["w1", nmSeg, "lodash"], wsRoot ++ [nmSeg, "lodash"]),
         (wsRoot ++ ["w2", nmSeg, "lodash"], wsRoot ++ [nmSeg, "lodash"]),
         (svcPath ++ [nmSeg, "w1"], wsRoot ++ [nmSeg, "w1"]),
         (svcPath ++ [nmSeg, "lodash"], wsRoot ++ [nmSeg, "lodash"]),
         (svcPath ++ [nmSeg, "w2"], wsRoot ++ [nmSeg, "w2"])],
       [(wsRoot ++ ["w1", nmSeg], "lodash"),
        (wsRoot ++ ["w2", nmSeg], "lodash"),
        (svcPath ++ [nmSeg], "w1"), (svcPath ++ [nmSeg], "lodash"),
        (svcPath ++ [nmSeg], "w2")]) := by
  refine ⟨?_, by decide⟩
  intro tm rm s w hmem hdep hcount hinj hpath
  have hsel : getWorkspaceDependencies tm rm =
      rm.workspaces.filter (fun v => tm.dependencies.contains v) :=
    getWorkspaceDependencies_eq_filter tm rm
  have hsel2 : ∀ v, v ∈ getWorkspaceDependencies tm rm →
      v ∈ rm.workspaces ∧ tm.dependencies.contains v = true := by
    intro v hv
    rw [hsel] at hv
    have := List.mem_filter.1 hv
    exact ⟨this.1, this.2⟩
  have hroots : linkagePassRoots tm rm s =
      ((getWorkspaceDependencies tm rm ++
        getWorkspaceDependencies tm rm).map
          (fun v => s.workspacePath ++ splitSeg v)) ++ [s.path] := rfl
  rw [hroots]
  constructor
  · rw [List.count_append]
    have h0 : List.count (s.workspacePath ++ splitSeg w) [s.path] = 0 := by
      apply List.count_eq_zero.2
      intro hc
      exact hpath w hmem ((List.mem_singleton.1 hc).symm)
    rw [h0, List.map_append, List.count_append]
    have hinj2 : ∀ v ∈ getWorkspaceDependencies tm rm,
        s.workspacePath ++ splitSeg v = s.workspacePath ++ splitSeg w →
        v = w := by
      intro v hv he
      exact hinj v (hsel2 v hv).1 (hsel2 v hv).2 he
    have hcm := count_map_inj (fun v => s.workspacePath ++ splitSeg v) w
      (getWorkspaceDependencies tm rm) hinj2
    rw [hcm]
    have hcf : (getWorkspaceDependencies tm rm).count w =
        rm.workspaces.count w := by
      rw [hsel]
      exact List.count_filter (by simpa using hdep)
    rw [hcf, hcount]
  · rw [List.count_append]
    have h0 : List.count s.path
        ((getWorkspaceDependencies tm rm ++
          getWorkspaceDependencies tm rm).map
            (fun v => s.workspacePath ++ splitSeg v)) = 0 := by
      apply List.count_eq_zero.2
      intro hc
      rcases List.mem_map.1 hc with ⟨v, hv, he⟩
      rcases List.mem_append.1 hv with hv2 | hv2
      · exact hpath v (hsel2 v hv2).1 he.symm
      · exact hpath v (hsel2 v hv2).1 he.symm
    rw [h0]
    simp

/-- Witness for C3: the two-pass count at the concrete one-workspace
scenario. -/
theorem c3_witness :
    (linkagePassRoots ⟨["w1"], []⟩ ⟨[], ["w1"]⟩ svcSettings).count
        (svcSettings.workspacePath ++ splitSeg "w1") = 2 ∧
      (linkagePassRoots ⟨["w1"], []⟩ ⟨[], ["w1"]⟩ svcSettings).count
        svcSettings.path = 1 :=
  c3_two_passes_per_workspace.1 ⟨["w1"], []⟩ ⟨[], ["w1"]⟩ svcSettings "w1"
    (by decide) (by decide) (by decide) (by decide) (by decide)

/-- C4 counterexample: for workspaces `["packages/a"]` and target
dependencies `{a}`, the spec's final-path-component selection returns
`["packages/a"]` but the code's `getWorkspaceDependencies`, which tests
the WHOLE entry string against the dependency keys, returns `[]`. -/
theorem c4_counterexample :
    getWorkspaceDependencies ⟨["a"], []⟩ ⟨[], ["packages/a"]⟩ ≠
        specWorkspaceSelection ⟨["a"], []⟩ ⟨[], ["packages/a"]⟩ ∧
      getWorkspaceDependencies ⟨["a"], []⟩ ⟨[], ["packages/a"]⟩ = [] ∧
      specWorkspaceSelection ⟨["a"], []⟩ ⟨[], ["packages/a"]⟩ =
        ["packages/a"] := by decide

/-- C4 amended: the workspace selection returns exactly those entries of
the root manifest's ordered workspaces list whose WHOLE ENTRY STRING is a
key of the target manifest's dependencies, preserving their order (it is
the order-preserving filter of the workspaces list, hence a sublist), and
is a pure function of the two manifests. -/
theorem c4_whole_entry_filter :
    ∀ tm rm : Manifest,
      getWorkspaceDependencies tm rm =
          rm.workspaces.filter (fun w => tm.dependencies.contains w) ∧
        List.Sublist (getWorkspaceDependencies tm rm) rm.workspaces ∧
        ∀ w, w ∈ getWorkspaceDependencies tm rm ↔
          (w ∈ rm.workspaces ∧ tm.dependencies.contains w = true) := by
  intro tm rm
  have he := getWorkspaceDependencies_eq_filter tm rm
  refine ⟨he, ?_, ?_⟩
  · rw [he]
    exact List.filter_sublist _
  · intro w
    rw [he, List.mem_filter]

/-- C5: only packages whose resolved manifest path contains at most one
`node_modules` segment receive a link: with two or more segments the call
adds no (destination, name) trace entry of its own (the trace changes
only by entries with names outside the extended ancestry, so membership
of this call's pair is unchanged), while with at most one segment, the
name absent from the created set and the symlink actually created, the
pair is in the final trace; and in the nested concrete scenario the deep
package E receives no link while its own dependency F - reached only by
recursing through E - does. -/
theorem c5_depth_policy :
    (∀ (db : Db) (name : String) (fromPath toPath : Path) (st : LinkState)
        (resolved : List String) (st2 : LinkState) (pkg : Path),
        name ∉ resolved →
        resolvePkg db st.links name fromPath = some pkg →
        2 ≤ nmCount pkg →
        linkPackage db name fromPath toPath st resolved = .ok st2 →
        ((toPath, name) ∈ st2.trace ↔ (toPath, name) ∈ st.trace)) ∧
    (∀ (db : Db) (name : String) (fromPath toPath : Path) (st : LinkState)
        (resolved : List String) (st2 : LinkState) (pkg : Path)
        (links2 : Links),
        name ∉ resolved →
        resolvePkg db st.links name fromPath = some pkg →
        nmCount pkg ≤ 1 →
        st.created.contains name = false →
        linkOp db st.links pkg.dropLast (pathJoin toPath name) =
          .ok (links2, true) →
        linkPackage db name fromPath toPath st resolved = .ok st2 →
        (toPath, name) ∈ st2.trace) ∧
    processLinkages nestedDb appPath [] = .ok
      { links := [(appPath ++ [nmSeg, "A"], wsRoot ++ [nmSeg, "A"]),
                  (appPath ++ [nmSeg, "F"], wsRoot ++ [nmSeg, "F"])],
        created := ["A", "F"],
        trace := [(appPath ++ [nmSeg], "A"),
                  (appPath ++ [nmSeg], "F")] } := by
  refine ⟨?_, ?_, by decide⟩
  · intro db name fromPath toPath st resolved st2 pkg hres hpk hcnt h
    rw [linkPackage_eq_succ,
      go_succ_deep (by simpa using hres) hpk
        (fun hc => absurd hc.1 (by omega))] at h
    cases hrm : readManifest db st.links pkg with
    | none => rw [hrm] at h; exact absurd h (by simp)
    | some m =>
      rw [hrm] at h
      have hrel := (go_linkAll_rel db (2 * (depUniverse db).length + 1)).2
        m.dependencies pkg.dropLast toPath st (resolved ++ [name]) st2 h
      constructor
      · intro hmem
        rcases hrel.2.2.2.1 _ hmem with hin | hout
        · exact hin
        · exact absurd (by simp : name ∈ resolved ++ [name]) hout
      · exact fun hmem => mem_of_grows hrel.2.2.1 hmem
  · intro db name fromPath toPath st resolved st2 pkg links2 hres hpk hcnt
      hcre hop h
    rw [linkPackage_eq_succ,
      go_succ_shallow (by simpa using hres) hpk ⟨hcnt, hcre⟩ hop] at h
    cases hrm : readManifest db links2 pkg with
    | none => rw [hrm] at h; exact absurd h (by simp)
    | some m =>
      rw [hrm] at h
      have hrel := (go_linkAll_rel db (2 * (depUniverse db).length + 1)).2
        m.dependencies pkg.dropLast toPath _ (resolved ++ [name]) st2 h
      refine mem_of_grows hrel.2.2.1 ?_
      simp

/-- Witness for C5: the deep package E of the nested scenario, resolved
two `node_modules` segments deep, gains no trace entry of its own. -/
theorem c5_witness :
    ((appPath ++ [nmSeg], "E") ∈
        ({ links := [(appPath ++ [nmSeg, "A"], wsRoot ++ [nmSeg, "A"]),
                     (appPath ++ [nmSeg, "F"], wsRoot ++ [nmSeg, "F"])],
           created := ["A", "F"],
           trace := [(appPath ++ [nmSeg], "A"), (appPath ++ [nmSeg], "F")] }
          : LinkState).trace ↔
      (appPath ++ [nmSeg], "E") ∈
        ({ links := [(appPath ++ [nmSeg, "A"], wsRoot ++ [nmSeg, "A"])],
           created := ["A"],
           trace := [(appPath ++ [nmSeg], "A")] } : LinkState).trace) :=
  c5_depth_policy.1 nestedDb "E" (wsRoot ++ [nmSeg, "A"])
    (appPath ++ [nmSeg])
    { links := [(appPath ++ [nmSeg, "A"], wsRoot ++ [nmSeg, "A"])],
      created := ["A"], trace := [(appPath ++ [nmSeg], "A")] } ["A"] _
    (wsRoot ++ [nmSeg, "A", nmSeg, "E", pjSeg]) (by decide) (by decide)
    (by decide) (by decide)

/-- C6: a dependency name found in none of the candidate paths - the
resolution of `resolvePkg`, covering both the standard lookup and the
fallback scan - makes `linkPackage` fail with the resolution error for
that name, and the failure propagates unchanged through the recursive
call chain of a pass, as in the concrete chain where A's dependency B is
missing. -/
theorem c6_resolution_error :
    (∀ (db : Db) (name : String) (fromPath toPath : Path) (st : LinkState)
        (resolved : List String), name ∉ resolved →
        resolvePkg db st.links name fromPath = none →
        linkPackage db name fromPath toPath st resolved =
          .error (.resolution name)) ∧
    processLinkages chainDb appPath [] = .error (.resolution "B") := by
  refine ⟨?_, by decide⟩
  intro db name fromPath toPath st resolved hres hpk
  rw [linkPackage_eq_succ]
  exact go_succ_noresolve (by simpa using hres) hpk

/-- Witness for C6: the unresolvable B of the chain scenario fails with
its resolution error. -/
theorem c6_witness :
    linkPackage chainDb "B" (wsRoot ++ [nmSeg, "A"]) (appPath ++ [nmSeg])
      { links := [(appPath ++ [nmSeg, "A"], wsRoot ++ [nmSeg, "A"])],
        created := ["A"], trace := [(appPath ++ [nmSeg], "A")] } ["A"] =
      .error (.resolution "B") :=
  c6_resolution_error.1 chainDb "B" (wsRoot ++ [nmSeg, "A"])
    (appPath ++ [nmSeg])
    { links := [(appPath ++ [nmSeg, "A"], wsRoot ++ [nmSeg, "A"])],
      created := ["A"], trace := [(appPath ++ [nmSeg], "A")] } ["A"]
    (by decide) (by decide)

/-- C7 counterexample: for a directory whose only entry is a scoped
directory containing a regular file, the claim prescribes success with
the directory kept (it has one entry afterwards, so it is not removed),
but `clean` attempts `rmdir` - its in-memory filtered contents list is
empty - and fails with ENOTEMPTY, leaving the tree unchanged. -/
theorem c7_counterexample :
    (cleanNode (.dir [("@s", .dir [("f", .file 0)])])).ok = false ∧
      (cleanNode (.dir [("@s", .dir [("f", .file 0)])])).node =
        some (.dir [("@s", .dir [("f", .file 0)])]) :=
  ⟨rfl, rfl⟩

/-- C7 amended: `clean` on an absent directory is a successful no-op;
otherwise it removes every symlink entry, recursively cleans every
remaining `@`-prefixed directory entry, and - strictly after both - it
removes the directory itself exactly when every direct entry was a
symlink or an `@`-prefixed directory AND the recursively cleaned scoped
directories all vanished (then the directory really has zero entries);
when every entry was a symlink or scoped directory but some scoped
subdirectory survived non-empty, the removal attempt FAILS (ENOTEMPTY)
and the error propagates.  Formally: the success flag of `cleanNode` is
`cleanOkB` and removal happens exactly on success plus vanishing. -/
theorem c7_clean_characterisation :
    clean none = ⟨none, true⟩ ∧
      (∀ n : FNode, (cleanNode n).ok = cleanOkB n) ∧
      (∀ n : FNode, (cleanNode n).node = none ↔
        (cleanOkB n = true ∧ vanishesB n = true)) :=
  ⟨rfl, fun n => (cleanNode_spec n).1, fun n => (cleanNode_spec n).2⟩

/-- C8 counterexample: on the stale-package database, one `initialise`
creates only the link for d, while a second `initialise` - resolving d
through the link it just created (the literal-path fallback of
src/index.js lines 72-80, which fires when d's manifest carries an export
map) and then finding the STALE w in the service's own dependency
directory, whose manifest declares the extra dependency q - creates an
additional link for q: the symlink sets after one and after two
invocations differ, so setup is not idempotent. -/
theorem c8_counterexample :
    initialise staleDb svcSettings [] = .ok
      ([(svcPath ++ [nmSeg, "d"], wsRoot ++ [nmSeg, "d"])],
       [(svcPath ++ [nmSeg], "d")]) ∧
    initialise staleDb svcSettings
        [(svcPath ++ [nmSeg, "d"], wsRoot ++ [nmSeg, "d"])] = .ok
      ([(svcPath ++ [nmSeg, "d"], wsRoot ++ [nmSeg, "d"]),
        (svcPath ++ [nmSeg, "q"], wsRoot ++ [nmSeg, "q"])],
       [(svcPath ++ [nmSeg], "q")]) ∧
    ([(svcPath ++ [nmSeg, "d"], wsRoot ++ [nmSeg, "d"])] : Links) ≠
      [(svcPath ++ [nmSeg, "d"], wsRoot ++ [nmSeg, "d"]),
       (svcPath ++ [nmSeg, "q"], wsRoot ++ [nmSeg, "q"])] := by decide

/-- C8 amended: a second `initialise` yields a symlink set CONTAINING the
first run's set (setup never removes or rewrites links; it can strictly
grow when a stale package under a destination directory changes the
second run's resolutions); during link creation, a link already existing
at the exact target path is recovered silently and treated as success
with no filesystem change, while a non-EEXIST creation failure is fatal
and propagates out of `linkPackage`. -/
theorem c8_setup_monotone_eexist :
    (∀ (db : Db) (s : Settings) (links0 : Links)
        (out1 out2 : Links × List (Path × String)),
        initialise db s links0 = .ok out1 →
        initialise db s out1.1 = .ok out2 → grows out1.1 out2.1) ∧
    (∀ (db : Db) (links : Links) (target f : Path),
        fileBlocked db f.dropLast = false → existsNode db links f = true →
        linkOp db links target f = .ok (links, false)) ∧
    (∀ (db : Db) (name : String) (fromPath toPath : Path) (st : LinkState)
        (resolved : List String) (pkg : Path),
        name ∉ resolved →
        resolvePkg db st.links name fromPath = some pkg →
        nmCount pkg ≤ 1 → st.created.contains name = false →
        fileBlocked db (pathJoin toPath name).dropLast = true →
        linkPackage db name fromPath toPath st resolved =
          .error (.fsError (pathJoin toPath name))) := by
  refine ⟨?_, ?_, ?_⟩
  · intro db s links0 out1 out2 h1 h2
    exact initialise_grows h2
  · intro db links target f h1 h2
    rw [linkOp, if_neg (by simp [h1]), if_pos (by simp [h2])]
  · intro db name fromPath toPath st resolved pkg hres hpk hcnt hcre hblk
    rw [linkPackage_eq_succ]
    exact go_succ_fsError (by simpa using hres) hpk ⟨hcnt, hcre⟩
      (by rw [linkOp, if_pos (by simp [hblk])])

/-- Witness for C8: the second stale-scenario run only extends the link
set of the first. -/
theorem c8_witness :
    grows [(svcPath ++ [nmSeg, "d"], wsRoot ++ [nmSeg, "d"])]
      [(svcPath ++ [nmSeg, "d"], wsRoot ++ [nmSeg, "d"]),
       (svcPath ++ [nmSeg, "q"], wsRoot ++ [nmSeg, "q"])] :=
  c8_setup_monotone_eexist.1 staleDb svcSettings []
    ([(svcPath ++ [nmSeg, "d"], wsRoot ++ [nmSeg, "d"])],
     [(svcPath ++ [nmSeg], "d")])
    ([(svcPath ++ [nmSeg, "d"], wsRoot ++ [nmSeg, "d"]),
      (svcPath ++ [nmSeg, "q"], wsRoot ++ [nmSeg, "q"])],
     [(svcPath ++ [nmSeg], "q")]) (by decide) (by decide)

/-- C9 counterexample: two successive reads of the same manifest path on
a disk that changes between them both return the FIRST read's mapping:
the second returned mapping differs from the file's on-disk content at
the moment of that read, refuting the fresh-read claim. -/
theorem c9_counterexample :
    requireSeq staleDisk [["p"], ["p"]] 0 [] =
        [⟨["a"], []⟩, ⟨["a"], []⟩] ∧
      staleDisk ["p"] 1 = ⟨["b"], []⟩ ∧
      (⟨["a"], []⟩ : Manifest) ≠ ⟨["b"], []⟩ := by decide

/-- C9 amended: manifest reads go through the module cache of `require`:
the first read of a path returns (and caches) its on-disk content at that
moment, and EVERY later read of the same path in the run returns the
first read's mapping, even if the file changed in between. -/
theorem c9_require_cached :
    ∀ (disk : Path → Nat → Manifest) (p : Path) (ps : List Path)
      (t i : Nat), ps.get? i = some p →
      (requireSeq disk (p :: ps) t []).get? (i + 1) =
        some (disk p t) := by
  intro disk p ps t i hp
  have e1 : requireSeq disk (p :: ps) t [] =
      disk p t :: requireSeq disk ps (t + 1) [(p, disk p t)] := rfl
  rw [e1]
  simp only [List.get?]
  exact requireSeq_cached disk ps (t + 1) [(p, disk p t)] p (p, disk p t)
    (by simp) i hp

/-- Witness for C9: the second read of the changing-disk scenario returns
the first read's content. -/
theorem c9_witness :
    (requireSeq staleDisk [["p"], ["p"]] 0 []).get? 1 =
      some (staleDisk ["p"] 0) :=
  c9_require_cached staleDisk ["p"] [["p"]] 0 0 rfl

/-- C10: `clean` never deletes a regular file - the files of the tree,
with their contents, are exactly preserved by `cleanNode`, whether it
succeeds or fails - and every entry that is neither a symlink nor an
`@`-prefixed directory is left unchanged in its directory, whose own
removal is then not even attempted. -/
theorem c10_clean_frame :
    (∀ n : FNode, filesOfOpt (cleanNode n).node = filesOf n) ∧
    (∀ (es : List (String × FNode)) (n : String) (c : FNode),
        (n, c) ∈ es → c.isLink = false →
        (c.isDir && startsWithAt n) = false →
        (cleanNode (.dir es)).node = some (.dir (cleanList es).1) ∧
          (n, c) ∈ (cleanList es).1) := by
  refine ⟨filesOf_cleanNode, ?_⟩
  intro es n c hmem hlink hscope
  exact ⟨cleanNode_keeps_dir (allLS_false_of_entry hmem hlink hscope),
    cleanList_keeps es n c hmem hlink hscope⟩

/-- Witness for C10: a regular file next to a symlink survives the clean
of its directory. -/
theorem c10_witness :
    (cleanNode (.dir [("x", .file 3), ("l", .link)])).node =
        some (.dir (cleanList [("x", .file 3), ("l", .link)]).1) ∧
      ("x", FNode.file 3) ∈
        (cleanList [("x", FNode.file 3), ("l", FNode.link)]).1 :=
  c10_clean_frame.2 [("x", .file 3), ("l", .link)] "x" (.file 3)
    (by simp) rfl rfl

end SMR
